import Mathlib

/-!
Shallow embedding of the repo_mentor RAG pipeline
(`backend/services/rag/{chunks,index,retriever}.py`, `backend/api/routes_chat.py`)
and verification of the specification claims about it.

Python strings are modelled as Lean `String` / `List Char`; Python ints as `Int`;
Python floats as exact rationals `ℚ`; optional / possibly-missing dict fields as
`Option`; raised exceptions as explicit error values.  External collaborators
(OpenAI's `embed_texts`, the JSON codec, the LLM summarizer) are universally
quantified function parameters, as the spec treats them as opaque collaborators.
-/

namespace RepoMentor

/-! ### Python-style string primitives (restricted to the ASCII data that the
pipeline manipulates: chunk ids, file paths, commit messages, queries). -/

/-- `isPrefixB p l` : `p` is a prefix of `l` (models `str.startswith` on char lists). -/
def isPrefixB : List Char → List Char → Bool
  | [], _ => true
  | _ :: _, [] => false
  | a :: as, b :: bs => (a == b) && isPrefixB as bs

/-- `containsSub needle hay` models Python's `needle in hay` substring test. -/
def containsSub (needle : List Char) : List Char → Bool
  | [] => isPrefixB needle []
  | c :: rest => isPrefixB needle (c :: rest) || containsSub needle rest

/-- Python `needle in hay` for `String`s. -/
def strContains (hay needle : String) : Bool := containsSub needle.toList hay.toList

/-- Python `hay.endswith(suffix)`. -/
def endsWithB (hay suffix : String) : Bool :=
  isPrefixB suffix.toList.reverse hay.toList.reverse

/-- ASCII lowering of one character (models `str.lower` on the ASCII text used here). -/
def lowerChar (c : Char) : Char :=
  if ('A' ≤ c && c ≤ 'Z') then Char.ofNat (c.toNat + 32) else c

/-- Models Python `s.lower()` for the ASCII strings this code handles. -/
def lowerStr (s : String) : String := String.mk (s.toList.map lowerChar)

/-- Python whitespace characters stripped by `str.strip()` (ASCII subset). -/
def isPyWs (c : Char) : Bool :=
  (c == ' ') || (c == '\t') || (c == '\n') || (c == '\r') ||
  (c == Char.ofNat 11) || (c == Char.ofNat 12)

/-- Models Python `s.strip()` on char lists. -/
def stripChars (cs : List Char) : List Char :=
  ((cs.dropWhile isPyWs).reverse.dropWhile isPyWs).reverse

/-- Models Python `s.strip()`. -/
def pyStrip (s : String) : String := String.mk (stripChars s.toList)

/-- Models Python `s.split('\n')` (explicit-separator split, keeps empty pieces). -/
def splitNl : List Char → List (List Char)
  | [] => [[]]
  | c :: rest =>
    let r := splitNl rest
    if c == '\n' then [] :: r
    else
      match r with
      | h :: t => (c :: h) :: t
      | [] => [[c]]

/-- Models Python `s.splitlines()` for text whose only line terminator is `'\n'`
(the only terminator occurring in the chunk files this code reads: `json.dumps`
escapes control characters, and lines are joined with `'\n'`). -/
def splitlinesNl (cs : List Char) : List (List Char) :=
  if cs = [] then []
  else
    let ps := splitNl cs
    if ps.getLast? = some [] then ps.dropLast else ps

/-! ### Stable sorting (model of Python's `sorted` / `list.sort`, which are
stable; insertion sort computes the same list as any stable sort). -/

/-- Insert `x` before the first element `y` with `le x y`; keeps earlier-listed
elements first on ties, like Python's stable sort. -/
def insertStable (le : α → α → Bool) (x : α) : List α → List α
  | [] => [x]
  | y :: ys => if le x y then x :: y :: ys else y :: insertStable le x ys

/-- Stable sort by the Boolean relation `le` (model of Python `sorted(..., key=...)`). -/
def stableSortBy (le : α → α → Bool) : List α → List α
  | [] => []
  | x :: xs => insertStable le x (stableSortBy le xs)

/-! ### Data model: commit records (`CommitRecord` of the spec).
Every field that Python reads with `dict.get` is an `Option`; a `none` models a
missing key (and, for container fields, also Python-falsy values, which the
code coalesces with `or`). -/

/-- One entry of a commit's `files` list. -/
structure FileChange where
  new_path : Option String
  old_path : Option String
  filename : Option String
  change_type : Option String
  added_lines : Option Int
  deleted_lines : Option Int
  diff_added : List (Int × String)
  diff_deleted : List (Int × String)
deriving DecidableEq

/-- `commit["author"]`. -/
structure Author where
  name : Option String
deriving DecidableEq

/-- `commit["meta"]`. -/
structure Meta where
  branches : Option (List String)
  merge : Option Bool
deriving DecidableEq

/-- `commit["stats"]`. -/
structure Stats where
  files : Option Int
  insertions : Option Int
  deletions : Option Int
deriving DecidableEq

/-- A raw commit record as read from `repos/<id>/commits/<stem>.json`. -/
structure Commit where
  committer_date : Option String
  hash : Option String
  msg : Option String
  author : Option Author
  meta : Option Meta
  stats : Option Stats
  files : Option (List FileChange)
deriving DecidableEq

/-- A `{id, text}` chunk. -/
structure Chunk where
  id : String
  text : String
deriving DecidableEq

/-! ### `chunks.py` -/

/-- `CODE_EXTS` from `chunks.py`. -/
def CODE_EXTS : List String :=
  [".py", ".js", ".ts", ".jsx", ".tsx", ".html", ".htm", ".css", ".scss",
   ".java", ".kt", ".kts", ".c", ".h", ".cpp", ".cc", ".hpp", ".go", ".rs",
   ".sql", ".sh", ".bash", ".zsh", ".rb", ".php", ".cs", ".swift", ".m", ".mm",
   ".ini", ".cfg"]

/-- `MAX_FILES_FOR_LLM` from `chunks.py`. -/
def MAX_FILES_FOR_LLM : ℕ := 20

/-- `MAX_LINES_PER_SNIPPET` from `chunks.py`. -/
def MAX_LINES_PER_SNIPPET : ℕ := 40

/-- The extension produced by `os.path.splitext(p)[1]` (CPython `genericpath._splitext`
with separator `'/'`): the part of the basename from its last dot on, empty when the
basename has no dot or only leading dots before it. -/
def extOf (p : String) : String :=
  let b := (p.toList.reverse.takeWhile (fun c => !(c == '/'))).reverse
  let afterDot := b.reverse.takeWhile (fun c => !(c == '.'))
  if afterDot.length = b.length then ""
  else
    let stem := b.take (b.length - afterDot.length - 1)
    if stem.any (fun c => !(c == '.')) then String.mk ('.' :: afterDot.reverse) else ""

/-- `_file_path` from `chunks.py`: `f.get("new_path") or f.get("old_path") or
f.get("filename") or ""` (Python `or` skips `None` and the empty string). -/
def _file_path (f : FileChange) : String :=
  match f.new_path with
  | some s =>
    if s ≠ "" then s
    else match f.old_path with
      | some s2 => if s2 ≠ "" then s2 else (f.filename.getD "")
      | none => f.filename.getD ""
  | none =>
    match f.old_path with
    | some s2 => if s2 ≠ "" then s2 else (f.filename.getD "")
    | none => f.filename.getD ""

/-- `_is_code_file` from `chunks.py`. -/
def _is_code_file (path : String) : Bool := CODE_EXTS.contains (extOf path)

/-- `noise_keywords` of `_is_noise_commit`. -/
def noise_keywords : List String :=
  ["format", "fmt", "prettier", "black", "lint", "typo", "docs", "doc", "readme", "chore"]

/-- Python `f.get("change_type") or "MODIFY"`. -/
def changeTypeOf (f : FileChange) : String :=
  match f.change_type with
  | some s => if s ≠ "" then s else "MODIFY"
  | none => "MODIFY"

/-- Python `_file_path(f) or "unknown"`. -/
def pathOrUnknown (f : FileChange) : String :=
  let p := _file_path f
  if p ≠ "" then p else "unknown"

/-- `_is_noise_commit` from `chunks.py`. -/
def _is_noise_commit (c : Commit) : Bool :=
  let message := lowerStr (c.msg.getD "")
  let stats := c.stats.getD ⟨none, none, none⟩
  let total : Int := stats.insertions.getD 0 + stats.deletions.getD 0
  let files := c.files.getD []
  if (noise_keywords.any (fun k => strContains message k)) && decide (total ≤ 20) then true
  else if !(files.any (fun f => _is_code_file (_file_path f))) then true
  else if files.isEmpty then true
  else false

/-- `"\\n".join(lines)` for `String` lists (structural model of `str.join`). -/
def joinStrNl : List String → String
  | [] => ""
  | [l] => l
  | l :: l2 :: ls => l ++ "\n" ++ joinStrNl (l2 :: ls)

/-- `_build_header` from `chunks.py`. -/
def _build_header (c : Commit) : String :=
  let date := c.committer_date.getD ""
  let h := c.hash.getD ""
  let msg := c.msg.getD ""
  let author := ((c.author.getD ⟨none⟩).name).getD ""
  let branches := ((c.meta.getD ⟨none, none⟩).branches).getD []
  let line1 := date ++ " " ++ h
  let msgLines := if msg ≠ "" then ["Message: " ++ msg] else []
  let metaLines :=
    if author ≠ "" ∨ branches ≠ [] then
      [String.intercalate " "
        ((if author ≠ "" then ["author=" ++ author] else []) ++
         (if branches ≠ [] then ["branches=" ++ String.intercalate "," branches] else []))]
    else []
  joinStrNl ([line1] ++ msgLines ++ metaLines)

/-- The `"- <path> (<change_type>)"` line rendered for one file. -/
def fileLineOf (f : FileChange) : String :=
  "- " ++ pathOrUnknown f ++ " (" ++ changeTypeOf f ++ ")"

/-- `_build_noise_summary` from `chunks.py`. -/
def _build_noise_summary (c : Commit) : String :=
  let files := c.files.getD []
  joinStrNl
    (["Summary:", "- Updated configuration / documentation / non-code assets.", "",
      "Files:"] ++
     files.map fileLineOf)

/-- `_build_fallback_body` from `chunks.py`: lists at most the first 5 files and a
`"+N more files"` line when more exist. -/
def _build_fallback_body (c : Commit) : String :=
  let files := c.files.getD []
  joinStrNl
    (["Summary:", "- Commit details could not be fully summarized by the LLM.", "",
      "Files:"] ++
     (files.take 5).map fileLineOf ++
     (if decide (5 < files.length) then
        ["- ... (+" ++ toString (files.length - 5) ++ " more files)"]
      else []))

/-- One file entry of the payload sent to the summarizer. -/
structure PayloadFile where
  path : String
  change_type : String
  added_lines : Int
  deleted_lines : Int
  added_snippet : List String
  deleted_snippet : List String
deriving DecidableEq

/-- The `"commit"` part of the summarizer payload. -/
structure PayloadCommit where
  committer_date : Option String
  hash : Option String
  msg : Option String
  author : Option String
  branches : List String
  is_merge : Bool
  stats_files : Option Int
  stats_insertions : Option Int
  stats_deletions : Option Int
deriving DecidableEq

/-- The full summarizer payload built by `_create_llm_payload`. -/
structure Payload where
  commit : PayloadCommit
  files : List PayloadFile
deriving DecidableEq

/-- `_extract_code_snippets` from `chunks.py`. -/
def _extract_code_snippets (f : FileChange) : List String × List String :=
  ((f.diff_added.map Prod.snd).take MAX_LINES_PER_SNIPPET,
   (f.diff_deleted.map Prod.snd).take MAX_LINES_PER_SNIPPET)

/-- The payload entry built for one file by `_create_llm_payload`. -/
def payloadFileOf (f : FileChange) : PayloadFile :=
  let path := _file_path f
  if _is_code_file path then
    let s := _extract_code_snippets f
    ⟨path, changeTypeOf f, f.added_lines.getD 0, f.deleted_lines.getD 0, s.1, s.2⟩
  else
    ⟨path, changeTypeOf f, f.added_lines.getD 0, f.deleted_lines.getD 0, [], []⟩

/-- `_create_llm_payload` from `chunks.py` (code files first, then other files,
truncated to `MAX_FILES_FOR_LLM`). -/
def _create_llm_payload (c : Commit) : Payload :=
  let meta := c.meta.getD ⟨none, none⟩
  let stats := c.stats.getD ⟨none, none, none⟩
  let files := c.files.getD []
  let commitPart : PayloadCommit :=
    ⟨c.committer_date, c.hash, c.msg, (c.author.getD ⟨none⟩).name,
     meta.branches.getD [], (meta.merge.getD false), stats.files, stats.insertions,
     stats.deletions⟩
  let codeFiles := (files.filter (fun f => _is_code_file (_file_path f))).map payloadFileOf
  let otherFiles := (files.filter (fun f => !(_is_code_file (_file_path f)))).map payloadFileOf
  ⟨commitPart, (codeFiles ++ otherFiles).take MAX_FILES_FOR_LLM⟩

/-- `_generate_chunk_text` from `chunks.py`.  The external summarizer
`summarise_commit` is a parameter; `Except.error ()` models it raising, and an
`Except.ok ""` models an empty response (Python `llm_summary or fallback`). -/
def _generate_chunk_text (summ : Payload → Except Unit String) (c : Commit) : String :=
  let header := _build_header c
  if _is_noise_commit c then
    let body := _build_noise_summary c
    header ++ (if body ≠ "" then "\n\n" ++ body else "")
  else
    let body :=
      match summ (_create_llm_payload c) with
      | Except.ok s => if s ≠ "" then s else _build_fallback_body c
      | Except.error _ => _build_fallback_body c
    header ++ (if body ≠ "" then "\n\n" ++ body else "")

/-! ### `build_rag_chunks` (`chunks.py`).
The `ThreadPoolExecutor` submits one task per sorted stem and collects
`fut.result()` by iterating the futures in submission order, so the collected
order equals the sorted submission order whatever the completion order; the pool
is therefore modelled as a sequential map over the sorted stems.  `read_json`
returning a falsy value (missing or empty record) is modelled as `none` and the
stem is skipped.  The JSON encoder `json.dumps` is the parameter `enc`. -/

/-- The chunk list assembled by `build_rag_chunks` before serialization. -/
def ragChunksOf (summ : Payload → Except Unit String) (store : String → Option Commit)
    (stems : List String) : List Chunk :=
  (stableSortBy (fun a b => decide (a ≤ b)) stems).filterMap
    (fun stem => (store stem).map (fun c => Chunk.mk stem (_generate_chunk_text summ c)))

/-- `"\n".join(lines)` on char lists. -/
def joinLinesNl : List (List Char) → List Char
  | [] => []
  | [l] => l
  | l :: l2 :: ls => l ++ '\n' :: joinLinesNl (l2 :: ls)

/-- The document written by `build_rag_chunks`:
`"\n".join(lines) + ("\n" if lines else "")`. -/
def jsonlOf (lines : List (List Char)) : List Char :=
  joinLinesNl lines ++ (if lines = [] then [] else ['\n'])

/-- `build_rag_chunks` from `chunks.py`: the full text written to
`repos/<id>/rag/chunks.jsonl`. -/
def build_rag_chunks (enc : Chunk → List Char) (summ : Payload → Except Unit String)
    (store : String → Option Commit) (stems : List String) : List Char :=
  jsonlOf ((ragChunksOf summ store stems).map enc)

/-! ### `retriever.py`: commit-id extraction, recency detection, date keys -/

/-- Character class `[a-f0-9]` of the hash regexes. -/
def isHexLower (c : Char) : Bool := c.isDigit || ('a' ≤ c && c ≤ 'f')

/-- Leftmost match of the single-class run regex `[a-f0-9]{lo,hi}` (Python
`re.search`): at the first position where at least `lo` class characters start,
greedily match up to `hi` of them. -/
def hexRunSearch (lo hi : ℕ) : List Char → Option (List Char)
  | [] => none
  | c :: rest =>
    let run := (c :: rest).takeWhile isHexLower
    if lo ≤ run.length then some (run.take hi) else hexRunSearch lo hi rest

/-- Match of the full chunk-id regex `\d{14}_[a-f0-9]{40}` anchored at the start
of `cs` (ASCII digits; the queries handled here are ASCII). -/
def chunkIdAt (cs : List Char) : Option (List Char) :=
  let d := cs.take 14
  if d.length = 14 && d.all Char.isDigit then
    match cs.drop 14 with
    | '_' :: r2 =>
      let h := r2.take 40
      if h.length = 40 && h.all isHexLower then some (d ++ '_' :: h) else none
    | _ => none
  else none

/-- Leftmost-match search (`re.search`) for an anchored matcher. -/
def searchAt (patAt : List Char → Option (List Char)) : List Char → Option (List Char)
  | [] => patAt []
  | c :: rest =>
    match patAt (c :: rest) with
    | some m => some m
    | none => searchAt patAt rest

/-- `_extract_commit_id_from_query` from `retriever.py`: full chunk-id pattern
first, then a 40-hex hash, then a 7-39-hex short hash. -/
def _extract_commit_id_from_query (q : String) : Option String :=
  match searchAt chunkIdAt q.toList with
  | some m => some (String.mk m)
  | none =>
    match hexRunSearch 40 40 q.toList with
    | some m => some (String.mk m)
    | none =>
      match hexRunSearch 7 39 q.toList with
      | some m => some (String.mk m)
      | none => none

/-- The apostrophe character (U+0027). -/
def aposChar : Char := Char.ofNat 39

/-- `recency_keywords` of `_is_recency_query` (the ninth entry spells
`what + apostrophe + s new`). -/
def recency_keywords : List String :=
  ["recent", "latest", "last", "new", "newest", "current", "updated", "what changed",
   String.mk ['w', 'h', 'a', 't', aposChar, 's', ' ', 'n', 'e', 'w'],
   "what are the changes", "what updates"]

/-- `_is_recency_query` from `retriever.py`. -/
def _is_recency_query (q : String) : Bool :=
  recency_keywords.any (fun k => strContains (lowerStr q) k)

/-- Numeric value of a digit list. -/
def digitsVal (cs : List Char) : ℕ := cs.foldl (fun n c => 10 * n + (c.toNat - 48)) 0

/-- Parse of a nonempty all-digit list. -/
def parseDigits (cs : List Char) : Option ℕ :=
  if cs ≠ [] ∧ cs.all Char.isDigit then some (digitsVal cs) else none

/-- Models Python `int(s)` on the ASCII strings reachable here (strip, optional
sign, decimal digits; `none` models `int` raising `ValueError`). -/
def pyIntParse (s : String) : Option Int :=
  match stripChars s.toList with
  | '-' :: rest => (parseDigits rest).map (fun n => -(n : Int))
  | '+' :: rest => (parseDigits rest).map (fun n => (n : Int))
  | cs => (parseDigits cs).map (fun n => (n : Int))

/-- `_extract_date_from_chunk_id` from `retriever.py`: `int(chunk_id.split('_')[0])`,
any parse failure caught and turned into `0`. -/
def _extract_date_from_chunk_id (cid : String) : Int :=
  (pyIntParse (String.mk (cid.toList.takeWhile (fun c => !(c == '_'))))).getD 0

/-! ### Vector arithmetic (model of numpy/faiss over exact rationals) -/

/-- Inner product (model of the faiss `IndexFlatIP` score). -/
def ipQ (u v : List ℚ) : ℚ := ((u.zip v).map (fun p => p.1 * p.2)).sum

/-- Squared L2 norm. -/
def l2normSq (v : List ℚ) : ℚ := (v.map (fun x => x * x)).sum

/-- Rational square root, exact on squares of rationals. -/
def ratSqrt (q : ℚ) : ℚ := (Nat.sqrt q.num.toNat : ℚ) / (Nat.sqrt q.den : ℚ)

/-- Model of `faiss.normalize_L2`, exact whenever the vector's L2 norm is
rational (all vectors appearing in the theorems below); like faiss it leaves a
zero-norm vector unchanged. -/
def normalize_L2 (v : List ℚ) : List ℚ :=
  let n := ratSqrt (l2normSq v)
  if n = 0 then v else v.map (fun x => x / n)

/-- Comparator of search hits: descending inner product, ties by insertion order. -/
def ipLe (a b : ℚ × ℕ) : Bool := decide (b.1 < a.1 ∨ (a.1 = b.1 ∧ a.2 ≤ b.2))

/-- The `(score, index)` pair list of the flat index, in insertion order. -/
def scoredVecs (q : List ℚ) (i : ℕ) : List (List ℚ) → List (ℚ × ℕ)
  | [] => []
  | v :: vs => (ipQ q v, i) :: scoredVecs q (i + 1) vs

/-- Model of `faiss.IndexFlatIP.search`: exact inner-product scores of the query
against every stored vector, sorted descending, truncated to `k`; returns
`(similarity, index)` pairs. -/
def searchIP (vecs : List (List ℚ)) (q : List ℚ) (k : ℕ) : List (ℚ × ℕ) :=
  (stableSortBy ipLe (scoredVecs q 0 vecs)).take k

/-! ### `index.py` -/

/-- Decode every line with `dec`, failing as soon as one line fails
(models a raised `json.JSONDecodeError` aborting the loop). -/
def decodeLines (dec : List Char → Option Chunk) : List (List Char) → Option (List Chunk)
  | [] => some []
  | l :: ls =>
    match dec l with
    | none => none
    | some c =>
      match decodeLines dec ls with
      | none => none
      | some cs => some (c :: cs)

/-- The line parse performed by `build_rag_index`: `splitlines`, strip each
line, skip empties, decode each remaining line (`none` models `json.loads`
raising). -/
def indexLoadChunks (dec : List Char → Option Chunk) (content : List Char) :
    Option (List Chunk) :=
  decodeLines dec (((splitlinesNl content).map stripChars).filter (fun l => l ≠ []))

/-- Outcome of `build_rag_index`. -/
inductive IndexBuildResult
  /-- `read_text` was falsy or no texts were parsed: the function returns
  without writing any index artifact. -/
  | noneWritten
  /-- `json.loads` raised on a line. -/
  | parseError
  /-- The serialized index stores exactly `vecs` (in insertion order) for the
  parsed chunk sequence `chunks`. -/
  | written (vecs : List (List ℚ)) (chunks : List Chunk)
deriving DecidableEq

/-- `build_rag_index` from `index.py`: parse the chunk file, embed every text in
one batched call, and add the embedding vectors - unmodified - to a flat
inner-product index in chunk order.  `embed` is the external embedding provider
(`embed_texts` maps it over the batch); `content` is what `read_text` returned
for `repos/<id>/rag/chunks.jsonl`. -/
def build_rag_index (dec : List Char → Option Chunk) (embed : String → List ℚ)
    (content : Option (List Char)) : IndexBuildResult :=
  match content with
  | none => IndexBuildResult.noneWritten
  | some cs =>
    if cs = [] then IndexBuildResult.noneWritten
    else
      match indexLoadChunks dec cs with
      | none => IndexBuildResult.parseError
      | some chunks =>
        if chunks = [] then IndexBuildResult.noneWritten
        else IndexBuildResult.written (chunks.map (fun c => embed c.text)) chunks

/-! ### `retrieve_chunks` (`retriever.py`) -/

/-- A `{id, text, similarity}` retrieval result. -/
structure RetrievalResult where
  id : String
  text : String
  similarity : ℚ
deriving DecidableEq

/-- An internal candidate of the semantic path (before internal fields are
stripped). -/
structure Candidate where
  id : String
  text : String
  similarity : ℚ
  date : Int
deriving DecidableEq

/-- Outcome of one `retrieve_chunks` call. -/
inductive ROutcome
  /-- Normal return; `usedEmbedding` records whether `embed_texts` was called
  (i.e. whether semantic search ran). -/
  | ok (results : List RetrievalResult) (usedEmbedding : Bool)
  /-- The distinct "Repository ... not found or not indexed. Please ingest the
  repository first." error (the `except FileNotFoundError` handler). -/
  | notIndexed
  /-- The generic wrapped "Failed to retrieve chunks: ..." error (the
  `except Exception` handler). -/
  | failed
deriving DecidableEq

/-- The chunk-match test of the exact-match shortcut:
`chunk_id == commit_id or chunk_id.endswith("_" + commit_id) or commit_id in chunk_id`. -/
def exactMatchPred (cid : String) (c : Chunk) : Bool :=
  (c.id == cid) || endsWithB c.id ("_" ++ cid) || strContains c.id cid

/-- The results collected by the exact-match shortcut, in chunk order, each with
similarity exactly 1. -/
def exactMatches (chunks : List Chunk) (cid : String) : List RetrievalResult :=
  (chunks.filter (exactMatchPred cid)).map (fun c => ⟨c.id, c.text, 1⟩)

/-- Largest date key of a candidate set (`max(c["date"] for c in candidates)`). -/
def maxDate : List Candidate → Int
  | [] => 0
  | c :: cs => (cs.map (fun x => x.date)).foldl max c.date

/-- Smallest date key of a candidate set. -/
def minDate : List Candidate → Int
  | [] => 0
  | c :: cs => (cs.map (fun x => x.date)).foldl min c.date

/-- The recency re-ranking of `retrieve_chunks` step 9: min-max normalize the
date keys (range forced to 1 when all dates agree), score
`0.7 * similarity + 0.3 * recency`, stable-sort descending by the combined
score.  The float constants 0.7 and 0.3 are modelled exactly. -/
def rerankScored (cands : List Candidate) : List (Candidate × ℚ) :=
  let maxD := maxDate cands
  let minD := minDate cands
  let range : ℚ := if maxD > minD then ((maxD - minD : Int) : ℚ) else 1
  stableSortBy (fun a b => decide (b.2 ≤ a.2))
    (cands.map (fun c =>
      (c, (7 / 10 : ℚ) * c.similarity + (3 / 10 : ℚ) * (((c.date - minD : Int) : ℚ) / range))))

/-- The re-ranked candidate order (scores dropped). -/
def rerank (cands : List Candidate) : List Candidate :=
  (rerankScored cands).map Prod.fst

/-- The search width of step 6: `min(3*top_k if recency else top_k, chunk_count)`. -/
def searchKOf (isrec : Bool) (top_k n : ℕ) : ℕ := min (if isrec then top_k * 3 else top_k) n

/-- Step 8 of `retrieve_chunks`: format every hit `(similarity, idx)` with
`idx < len(chunks)` as a candidate carrying the id, text and date key of
`chunks[idx]`. -/
def candidatesOf (chunks : List Chunk) (hits : List (ℚ × ℕ)) : List Candidate :=
  hits.filterMap (fun si =>
    match chunks.get? si.2 with
    | some c => some (Candidate.mk c.id c.text si.1 (_extract_date_from_chunk_id c.id))
    | none => none)

/-- Steps 4-10 of `retrieve_chunks`: embed the query, L2-normalize it, search
`min(chunk_count, 3*top_k or top_k)` neighbors, form candidates (guarding
`idx < len(chunks)`), re-rank recency queries, truncate to `top_k`, strip
internal fields. -/
def semanticSearch (embed : String → List ℚ) (vecs : List (List ℚ)) (chunks : List Chunk)
    (query : String) (top_k : ℕ) : List RetrievalResult :=
  let qv := normalize_L2 (embed query)
  let isrec := _is_recency_query query
  let hits := searchIP vecs qv (searchKOf isrec top_k chunks.length)
  let candidates := candidatesOf chunks hits
  let results :=
    if isrec && !candidates.isEmpty then (rerank candidates).take top_k
    else candidates.take top_k
  results.map (fun r => RetrievalResult.mk r.id r.text r.similarity)

/-- The retriever's line parse: `chunks_text.strip().split('\n')`, skip falsy
lines, `json.loads` each (`none` models a raised `JSONDecodeError`). -/
def retrLoadChunks (dec : List Char → Option Chunk) (content : List Char) :
    Option (List Chunk) :=
  decodeLines dec ((splitNl (stripChars content)).filter (fun l => l ≠ []))

/-- `retrieve_chunks` from `retriever.py` on a cache miss.
`indexVecs = none` models `read_bytes` raising `FileNotFoundError` for a missing
`index.faiss` (handled by the dedicated `except FileNotFoundError` branch);
`chunksText = none` models `read_text` returning `None` for a missing
`chunks.jsonl`, upon which `None.strip()` raises `AttributeError`, which only
the generic `except Exception` branch catches.  A cache hit replays the same
`(index, chunks)` pair and continues identically from the `if not chunks` test. -/
def retrieve_chunks (dec : List Char → Option Chunk) (embed : String → List ℚ)
    (indexVecs : Option (List (List ℚ))) (chunksText : Option (List Char))
    (query : String) (top_k : ℕ) : ROutcome :=
  match indexVecs with
  | none => ROutcome.notIndexed
  | some vecs =>
    match chunksText with
    | none => ROutcome.failed
    | some content =>
      match retrLoadChunks dec content with
      | none => ROutcome.failed
      | some chunks =>
        if chunks.isEmpty then ROutcome.ok [] false
        else
          match _extract_commit_id_from_query query with
          | some cid =>
            let ms := exactMatches chunks cid
            if !ms.isEmpty then ROutcome.ok (ms.take top_k) false
            else ROutcome.ok (semanticSearch embed vecs chunks query top_k) true
          | none => ROutcome.ok (semanticSearch embed vecs chunks query top_k) true

/-! ### `routes_chat.py` -/

/-- Outcome of the `/chat` endpoint's validation prologue. -/
inductive ChatOutcome
  /-- An `HTTPException(status_code=400, detail=...)` raised before
  `chat_with_repo` is invoked - so before any storage read or embedding call. -/
  | badRequest (detail : String)
  /-- Validation passed; `chat_with_repo` (and hence `retrieve_chunks`) is
  invoked with the effective `top_k` (`payload.top_k or 5`). -/
  | handled (top_k : ℕ)
deriving DecidableEq

/-- The validation prologue of the `chat` route (`routes_chat.py`): empty or
whitespace `repo_id`/`message` are rejected; `top_k` is rejected only when it is
truthy (non-zero) and outside `[1, 20]`. -/
def chatEndpoint (repo_id message : String) (top_k : Option Int) : ChatOutcome :=
  if pyStrip repo_id = "" then ChatOutcome.badRequest "repo_id is required and cannot be empty"
  else if pyStrip message = "" then ChatOutcome.badRequest "message is required and cannot be empty"
  else
    match top_k with
    | some t =>
      if t ≠ 0 ∧ (t < 1 ∨ t > 20) then ChatOutcome.badRequest "top_k must be between 1 and 20"
      else ChatOutcome.handled (if t ≠ 0 then t.toNat else 5)
    | none => ChatOutcome.handled 5

/-! ## Claim theorems -/

/-! ### C6: noise classification -/

/-- The spec's first noise example: message `"chore: fix typo"`, `insertions=3`,
`deletions=1`, files `[{"filename": "a.md"}]`. -/
def noiseExampleCommit : Commit :=
  { committer_date := none, hash := none, msg := some "chore: fix typo", author := none,
    meta := none, stats := some ⟨none, some 3, some 1⟩,
    files := some [{ new_path := none, old_path := none, filename := some "a.md",
                     change_type := none, added_lines := none, deleted_lines := none,
                     diff_added := [], diff_deleted := [] }] }

/-- The spec's second noise example: a commit touching `main.py` with 100
changed lines and message `"add parser"`. -/
def parserExampleCommit : Commit :=
  { committer_date := none, hash := none, msg := some "add parser", author := none,
    meta := none, stats := some ⟨some 1, some 60, some 40⟩,
    files := some [{ new_path := some "main.py", old_path := none, filename := none,
                     change_type := none, added_lines := some 60, deleted_lines := some 40,
                     diff_added := [], diff_deleted := [] }] }

/-- C6: a commit is classified noise iff (a) its lowercased message contains a
noise keyword and insertions+deletions ≤ 20, or (b) none of its files has a
code extension, or (c) it touches zero files; the `"chore: fix typo"` example
is noise and the `main.py`/`"add parser"` example is not. -/
theorem c6_noise_classification :
    (∀ c : Commit,
        _is_noise_commit c = true ↔
          ((∃ k ∈ noise_keywords, strContains (lowerStr (c.msg.getD "")) k = true) ∧
              (c.stats.getD ⟨none, none, none⟩).insertions.getD 0 +
                (c.stats.getD ⟨none, none, none⟩).deletions.getD 0 ≤ 20) ∨
            (∀ f ∈ c.files.getD [], _is_code_file (_file_path f) = false) ∨
            c.files.getD [] = []) ∧
    _is_noise_commit noiseExampleCommit = true ∧
    _is_noise_commit parserExampleCommit = false := by
  refine ⟨fun c => ?_, by decide, by decide⟩
  simp only [_is_noise_commit]
  constructor
  · intro h
    split_ifs at h with h1 h2 h3
    · left
      simpa only [Bool.and_eq_true, List.any_eq_true, decide_eq_true_eq] using h1
    · right; left
      intro f hf
      have h2a : ((c.files.getD []).any fun f => _is_code_file (_file_path f)) = false := by
        simpa using h2
      simpa using List.any_eq_false.mp h2a f hf
    · right; right
      simpa using h3
  · intro h
    rcases h with ⟨hex, hle⟩ | hall | hnil
    · have h1 : (noise_keywords.any fun k => strContains (lowerStr (c.msg.getD "")) k) = true :=
        List.any_eq_true.mpr hex
      simp [h1, hle]
    · have hcode : ((c.files.getD []).any fun f => _is_code_file (_file_path f)) = false :=
        List.any_eq_false.mpr (fun f hf => by simp [hall f hf])
      split_ifs <;> simp_all
    · split_ifs <;> simp_all [hnil]

/-! ### C8: extractor totality and summarizer fallback -/

/-- The fallback body is never empty (it always begins with the `"Summary:"` line). -/
theorem build_fallback_body_ne_empty (c : Commit) : _build_fallback_body c ≠ "" := by
  simp only [_build_fallback_body, joinStrNl, List.cons_append]
  intro h
  have h2 := congrArg String.length h
  simp [String.length_append] at h2
  exact absurd h2.1 (by decide)

/-- C8: for every commit record - all optional fields arbitrary or missing - the
extractor produces the header-plus-body string totally; whenever the summarizer
raises or returns the empty string on a non-noise commit, the body is exactly
the deterministic fallback, which lists the first `min 5 n` of the `n` files
and carries a `"+ (n-5) more files"` line exactly when `n > 5`. -/
theorem c8_extractor_totality_and_fallback :
    (∀ (summ : Payload → Except Unit String) (c : Commit),
        (summ (_create_llm_payload c) = Except.error () ∨
          summ (_create_llm_payload c) = Except.ok "") →
        _is_noise_commit c = false →
        _generate_chunk_text summ c = _build_header c ++ "\n\n" ++ _build_fallback_body c) ∧
    (∀ c : Commit,
        (c.files.getD []).length ≤ 5 →
        _build_fallback_body c =
          joinStrNl
            (["Summary:", "- Commit details could not be fully summarized by the LLM.", "",
              "Files:"] ++ (c.files.getD []).map fileLineOf)) ∧
    (∀ c : Commit,
        5 < (c.files.getD []).length →
        _build_fallback_body c =
          joinStrNl
            (["Summary:", "- Commit details could not be fully summarized by the LLM.", "",
              "Files:"] ++ ((c.files.getD []).take 5).map fileLineOf ++
             ["- ... (+" ++ toString ((c.files.getD []).length - 5) ++ " more files)"])) ∧
    (∀ c : Commit, ((c.files.getD []).take 5).length = min 5 (c.files.getD []).length) ∧
    (∀ (summ : Payload → Except Unit String) (c : Commit), ∃ body : String,
        _generate_chunk_text summ c =
          _build_header c ++ (if body ≠ "" then "\n\n" ++ body else "")) := by
  refine ⟨?_, ?_, ?_, ?_, ?_⟩
  · intro summ c hs hnoise
    simp only [_generate_chunk_text, hnoise, Bool.false_eq_true, if_false]
    rcases hs with hs | hs <;>
      simp [hs, build_fallback_body_ne_empty c, String.append_assoc]
  · intro c hle
    simp only [_build_fallback_body, fileLineOf]
    rw [List.take_of_length_le hle]
    have : ¬ (5 < (c.files.getD []).length) := not_lt.mpr hle
    simp [this]
  · intro c hgt
    simp only [_build_fallback_body, fileLineOf]
    simp [hgt]
  · intro c
    exact List.length_take 5 (c.files.getD [])
  · intro summ c
    by_cases hnoise : _is_noise_commit c = true
    · exact ⟨_build_noise_summary c, by simp [_generate_chunk_text, hnoise]⟩
    · simp only [Bool.not_eq_true] at hnoise
      rcases hs : summ (_create_llm_payload c) with e | s
      · exact ⟨_build_fallback_body c, by simp [_generate_chunk_text, hnoise, hs]⟩
      · by_cases hemp : s = ""
        · exact ⟨_build_fallback_body c, by simp [_generate_chunk_text, hnoise, hs, hemp]⟩
        · exact ⟨s, by simp [_generate_chunk_text, hnoise, hs, hemp]⟩

/-- Witness for C8 at a concrete non-noise commit and an always-raising
summarizer. -/
theorem c8_extractor_totality_and_fallback_witness :
    _generate_chunk_text (fun _ => Except.error ()) parserExampleCommit =
      _build_header parserExampleCommit ++ "\n\n" ++ _build_fallback_body parserExampleCommit := by
  exact c8_extractor_totality_and_fallback.1 (fun _ => Except.error ())
    parserExampleCommit (Or.inl rfl) (by decide)

/-! ### Helper lemmas about the sorting and line-splitting models -/

/-- Membership in a stable insertion. -/
theorem mem_insertStable {α} (le : α → α → Bool) (x a : α) (l : List α) :
    a ∈ insertStable le x l ↔ a = x ∨ a ∈ l := by
  induction l with
  | nil => simp [insertStable]
  | cons y ys ih =>
    simp only [insertStable]
    split_ifs with h
    · simp [or_assoc]
    · simp only [List.mem_cons, ih]
      tauto

/-- A stable insertion is a permutation of consing. -/
theorem perm_insertStable {α} (le : α → α → Bool) (x : α) (l : List α) :
    (insertStable le x l).Perm (x :: l) := by
  induction l with
  | nil => simp [insertStable]
  | cons y ys ih =>
    simp only [insertStable]
    split_ifs with h
    · exact List.Perm.refl _
    · exact (List.Perm.cons y ih).trans (List.Perm.swap x y ys)

/-- The stable sort is a permutation of its input. -/
theorem perm_stableSortBy {α} (le : α → α → Bool) (l : List α) :
    (stableSortBy le l).Perm l := by
  induction l with
  | nil => exact List.Perm.refl _
  | cons x xs ih =>
    exact (perm_insertStable le x (stableSortBy le xs)).trans (List.Perm.cons x ih)

/-- Stable insertion preserves sortedness for a total transitive relation
decided by `le`. -/
theorem pairwise_insertStable {α} (r : α → α → Prop) (le : α → α → Bool)
    (hle : ∀ a b, le a b = true ↔ r a b) (htrans : ∀ {a b c}, r a b → r b c → r a c)
    (htot : ∀ a b, r a b ∨ r b a) (x : α) (l : List α) (hl : l.Pairwise r) :
    (insertStable le x l).Pairwise r := by
  induction l with
  | nil => simp [insertStable]
  | cons y ys ih =>
    simp only [insertStable]
    rcases List.pairwise_cons.mp hl with ⟨hy, hys⟩
    split_ifs with h
    · refine List.pairwise_cons.mpr ⟨?_, hl⟩
      intro b hb
      rcases List.mem_cons.mp hb with rfl | hb
      · exact (hle x b).mp h
      · exact htrans ((hle x y).mp h) (hy b hb)
    · refine List.pairwise_cons.mpr ⟨?_, ih hys⟩
      intro b hb
      rcases (mem_insertStable le x b ys).mp hb with rfl | hb
      · rcases htot y b with hyb | hby
        · exact hyb
        · exact absurd ((hle b y).mpr hby) (by simpa using h)
      · exact hy b hb

/-- The stable sort is sorted for a total transitive relation decided by `le`. -/
theorem pairwise_stableSortBy {α} (r : α → α → Prop) (le : α → α → Bool)
    (hle : ∀ a b, le a b = true ↔ r a b) (htrans : ∀ {a b c}, r a b → r b c → r a c)
    (htot : ∀ a b, r a b ∨ r b a) (l : List α) :
    (stableSortBy le l).Pairwise r := by
  induction l with
  | nil => simp [stableSortBy]
  | cons x xs ih =>
    exact pairwise_insertStable r le hle htrans htot x (stableSortBy le xs) ih

/-- `splitNl` never returns the empty list. -/
theorem splitNl_ne_nil (cs : List Char) : splitNl cs ≠ [] := by
  induction cs with
  | nil => simp [splitNl]
  | cons c rest ih =>
    simp only [splitNl]
    split_ifs with h
    · simp
    · match hr : splitNl rest with
      | [] => exact absurd hr ih
      | h2 :: t => simp

/-- Splitting after a newline-free segment prepends the segment to the first piece. -/
theorem splitNl_append (l cs : List Char) (h : ('\n' : Char) ∉ l) :
    ∀ hd tl, splitNl cs = hd :: tl → splitNl (l ++ cs) = (l ++ hd) :: tl := by
  induction l with
  | nil => intro hd tl hcs; simpa using hcs
  | cons a as ih =>
    intro hd tl hcs
    have ha : ¬ (a == '\n') = true := by
      simp only [beq_iff_eq]
      intro hcontra
      exact h (hcontra ▸ List.mem_cons_self a as)
    have has : ('\n' : Char) ∉ as := fun hmem => h (List.mem_cons_of_mem a hmem)
    have hr := ih has hd tl hcs
    simp only [List.cons_append, splitNl, ha, Bool.false_eq_true, if_false]
    change (match splitNl (as ++ cs) with
      | h :: t => (a :: h) :: t
      | [] => [[a]]) = (a :: (as ++ hd)) :: tl
    rw [hr]

/-- Splitting a newline-free segment yields that one piece. -/
theorem splitNl_no_nl (l : List Char) (h : ('\n' : Char) ∉ l) : splitNl l = [l] := by
  have := splitNl_append l [] h [] [] rfl
  simpa using this

/-- `splitNl` recovers the lines from a newline-joined nonempty line list. -/
theorem splitNl_joinLinesNl (lines : List (List Char)) (hnl : ∀ l ∈ lines, ('\n' : Char) ∉ l)
    (hne : lines ≠ []) : splitNl (joinLinesNl lines) = lines := by
  induction lines with
  | nil => exact absurd rfl hne
  | cons l ls ih =>
    cases ls with
    | nil => exact splitNl_no_nl l (hnl l (List.mem_cons_self l []))
    | cons l2 ls2 =>
      have h1 : ('\n' : Char) ∉ l := hnl l (List.mem_cons_self l _)
      have h2 : ∀ x ∈ l2 :: ls2, ('\n' : Char) ∉ x := fun x hx =>
        hnl x (List.mem_cons_of_mem l hx)
      have ihs := ih h2 (by simp)
      have hsplit : splitNl ('\n' :: joinLinesNl (l2 :: ls2)) = [] :: (l2 :: ls2) := by
        simp only [splitNl, beq_self_eq_true, if_true, ihs]
      have hmain := splitNl_append l ('\n' :: joinLinesNl (l2 :: ls2)) h1 [] (l2 :: ls2) hsplit
      simpa [joinLinesNl] using hmain

/-- `splitNl` of the written chunk document: the lines plus the final empty piece. -/
theorem splitNl_jsonlOf (lines : List (List Char)) (hnl : ∀ l ∈ lines, ('\n' : Char) ∉ l)
    (hne : lines ≠ []) : splitNl (jsonlOf lines) = lines ++ [[]] := by
  induction lines with
  | nil => exact absurd rfl hne
  | cons l ls ih =>
    have h1 : ('\n' : Char) ∉ l := hnl l (List.mem_cons_self l _)
    cases ls with
    | nil =>
      have hsplit : splitNl ['\n'] = [[], []] := by simp [splitNl]
      have hmain := splitNl_append l ['\n'] h1 [] [[]] hsplit
      simpa [jsonlOf, joinLinesNl] using hmain
    | cons l2 ls2 =>
      have h2 : ∀ x ∈ l2 :: ls2, ('\n' : Char) ∉ x := fun x hx =>
        hnl x (List.mem_cons_of_mem l hx)
      have ihs := ih h2 (by simp)
      have hshape : jsonlOf (l :: l2 :: ls2) = l ++ ('\n' :: jsonlOf (l2 :: ls2)) := by
        simp [jsonlOf, joinLinesNl]
      have hsplit : splitNl ('\n' :: jsonlOf (l2 :: ls2)) = [] :: ((l2 :: ls2) ++ [[]]) := by
        simp only [splitNl, beq_self_eq_true, if_true, ihs]
      have hmain := splitNl_append l ('\n' :: jsonlOf (l2 :: ls2)) h1 []
        ((l2 :: ls2) ++ [[]]) hsplit
      rw [hshape, hmain]
      simp

/-- `splitlinesNl` recovers the chunk lines from the written document. -/
theorem splitlinesNl_jsonlOf (lines : List (List Char))
    (hnl : ∀ l ∈ lines, ('\n' : Char) ∉ l) : splitlinesNl (jsonlOf lines) = lines := by
  cases lines with
  | nil => simp [jsonlOf, joinLinesNl, splitlinesNl]
  | cons l ls =>
    have hne : (l :: ls) ≠ [] := by simp
    have hsplit := splitNl_jsonlOf (l :: ls) hnl hne
    have hcne : jsonlOf (l :: ls) ≠ [] := by
      simp only [jsonlOf, hne, if_false]
      simp
    simp only [splitlinesNl, hcne, if_false, hsplit]
    rw [List.getLast?_concat, List.dropLast_concat]
    simp

/-- Decoding re-encoded chunks succeeds and recovers them. -/
theorem decodeLines_roundtrip (dec : List Char → Option Chunk) (enc : Chunk → List Char)
    (cs : List Chunk) (hdec : ∀ c ∈ cs, dec (enc c) = some c) :
    decodeLines dec (cs.map enc) = some cs := by
  induction cs with
  | nil => simp [decodeLines]
  | cons c cs2 ih =>
    have h1 := hdec c (List.mem_cons_self c cs2)
    have h2 := ih fun x hx => hdec x (List.mem_cons_of_mem c hx)
    simp only [List.map_cons, decodeLines, h1, h2]

/-- The chunk ids produced by `ragChunksOf`-style filtering form a sublist of
the stem list they were filtered from. -/
theorem ragChunks_ids_sublist (summ : Payload → Except Unit String)
    (store : String → Option Commit) (l : List String) :
    ((l.filterMap (fun stem =>
        (store stem).map (fun c => Chunk.mk stem (_generate_chunk_text summ c)))).map
      Chunk.id).Sublist l := by
  induction l with
  | nil => simp
  | cons s t ih =>
    cases hs : store s with
    | none =>
      simp only [List.filterMap_cons, hs, Option.map_none']
      exact ih.cons s
    | some c =>
      simp only [List.filterMap_cons, hs, Option.map_some', List.map_cons]
      exact ih.cons₂ s

/-! ### C9: chunk file shape -/

/-- C9: `build_rag_chunks` writes one newline-delimited document whose lines are
the encoded chunks; the chunk ids are in ascending order (the futures are
collected in sorted submission order, independent of completion order); the
trailing newline is present iff at least one chunk exists; and when every
commit record fails to read the written document is empty (still written, not
omitted). -/
theorem c9_chunk_file_shape (enc : Chunk → List Char) (summ : Payload → Except Unit String)
    (store : String → Option Commit) (stems : List String)
    (henc : ∀ c : Chunk, ('\n' : Char) ∉ enc c) :
    splitlinesNl (build_rag_chunks enc summ store stems) =
        (ragChunksOf summ store stems).map enc ∧
    ((ragChunksOf summ store stems).map Chunk.id).Pairwise (· ≤ ·) ∧
    ((build_rag_chunks enc summ store stems).getLast? = some '\n' ↔
        ragChunksOf summ store stems ≠ []) ∧
    ((∀ stem ∈ stems, store stem = none) → build_rag_chunks enc summ store stems = []) := by
  refine ⟨?_, ?_, ?_, ?_⟩
  · exact splitlinesNl_jsonlOf _ (fun l hl => by
      rcases List.mem_map.mp hl with ⟨c, _, rfl⟩
      exact henc c)
  · have hpair : (stableSortBy (fun a b => decide (a ≤ b)) stems).Pairwise
        (fun a b : String => a ≤ b) :=
      pairwise_stableSortBy (fun a b : String => a ≤ b) (fun a b => decide (a ≤ b))
        (fun a b => by simp) (fun hab hbc => le_trans hab hbc) le_total stems
    exact List.Pairwise.sublist (ragChunks_ids_sublist summ store _) hpair
  · cases hch : ragChunksOf summ store stems with
    | nil => simp [build_rag_chunks, hch, jsonlOf, joinLinesNl]
    | cons c cs =>
      simp only [build_rag_chunks, hch, jsonlOf, List.map_cons, ne_eq]
      constructor
      · intro _; simp
      · intro _
        exact List.getLast?_concat _
  · intro hstore
    have hch : ragChunksOf summ store stems = [] := by
      apply List.filterMap_eq_nil_iff.mpr
      intro a ha
      have hmem : a ∈ stems := (perm_stableSortBy (fun a b => decide (a ≤ b)) stems).mem_iff.mp ha
      rw [hstore a hmem]
      rfl
    simp [build_rag_chunks, hch, jsonlOf, joinLinesNl]

/-- The encoder of the C9 witness (every chunk encodes to the newline-free `"x"`). -/
def w9enc : Chunk → List Char := fun _ => ['x']

/-- The summarizer of the C9 witness. -/
def w9summ : Payload → Except Unit String := fun _ => Except.ok "s"

/-- The commit store of the C9 witness: only stem `"b"` is readable. -/
def w9store : String → Option Commit := fun s =>
  if s = "b" then some ⟨none, none, none, none, none, none, none⟩ else none

/-- Witness for C9 at a concrete encoder, summarizer, store and stem list. -/
theorem c9_chunk_file_shape_witness :
    (∀ c : Chunk, ('\n' : Char) ∉ w9enc c) ∧
    ((ragChunksOf w9summ w9store ["b", "a"]).map Chunk.id).Pairwise (· ≤ ·) :=
  ⟨fun c => by simp [w9enc],
   (c9_chunk_file_shape w9enc w9summ w9store ["b", "a"] (fun c => by simp [w9enc])).2.1⟩

/-! ### C3: "not indexed" failure distinctness -/

/-- C3 evaluation: a missing index artifact does raise the distinct not-indexed
failure, but a missing chunks file with the index present raises the generic
wrapped failure instead (`read_text` returns `None`, `None.strip()` raises
`AttributeError`, caught only by the broad `except Exception` handler), which
contradicts the claim that both absences signal the distinct failure. -/
theorem c3_not_indexed_divergence :
    (∀ (dec : List Char → Option Chunk) (embed : String → List ℚ)
        (chunksText : Option (List Char)) (query : String) (top_k : ℕ),
        retrieve_chunks dec embed none chunksText query top_k = ROutcome.notIndexed) ∧
    retrieve_chunks (fun _ => none) (fun _ => []) (some [[1]]) none "q" 5 =
      ROutcome.failed ∧
    ROutcome.failed ≠ ROutcome.notIndexed := by
  refine ⟨fun dec embed chunksText query top_k => rfl, rfl, by decide⟩

/-! ### C7: top_k validation and result-count bound -/

/-- C7 counterexample: `top_k = 0` lies outside `[1, 20]`, yet the route does
not reject it with a 400 - the Python truthiness test `if payload.top_k and ...`
skips the range check for `0`, and the request proceeds to retrieval with the
default `top_k = 5`. -/
theorem c7_topk_zero_counterexample :
    (0 : Int) < 1 ∧ chatEndpoint "r" "m" (some 0) = ChatOutcome.handled 5 := by
  exact ⟨by decide, by decide⟩

/-- The semantic-search result list never exceeds `min top_k chunk_count`. -/
theorem semanticSearch_length_le (embed : String → List ℚ) (vecs : List (List ℚ))
    (chunks : List Chunk) (query : String) (top_k : ℕ) :
    (semanticSearch embed vecs chunks query top_k).length ≤ min top_k chunks.length := by
  simp only [semanticSearch, List.length_map]
  set isrec := _is_recency_query query
  set search_k := min (if isrec then top_k * 3 else top_k) chunks.length with hsk
  set hits := searchIP vecs (normalize_L2 (embed query)) search_k with hhits
  set cands := hits.filterMap (fun si =>
    match chunks.get? si.2 with
    | some c => some (Candidate.mk c.id c.text si.1 (_extract_date_from_chunk_id c.id))
    | none => none) with hcands
  have hhitlen : hits.length ≤ search_k := by
    rw [hhits]
    simp only [searchIP]
    exact (List.length_take _ _).le.trans (min_le_left _ _)
  have hcandlen : cands.length ≤ chunks.length := by
    calc cands.length ≤ hits.length := List.length_filterMap_le _ _
    _ ≤ search_k := hhitlen
    _ ≤ chunks.length := by rw [hsk]; exact min_le_right _ _
  have hrrlen : (rerank cands).length = cands.length := by
    simp only [rerank, rerankScored, List.length_map]
    exact (perm_stableSortBy _ _).length_eq.trans (by simp)
  split_ifs with h
  · refine le_min ?_ ?_
    · exact (List.length_take _ _).le.trans (min_le_left _ _)
    · exact (List.length_take _ _).le.trans ((min_le_right _ _).trans (hrrlen ▸ hcandlen))
  · refine le_min ?_ ?_
    · exact (List.length_take _ _).le.trans (min_le_left _ _)
    · exact (List.length_take _ _).le.trans ((min_le_right _ _).trans hcandlen)

/-- C7 (amended): a non-zero `top_k` outside `[1, 20]` is rejected with the 400
validation error before any retrieval work, an in-range `top_k` is accepted
unchanged, but `top_k = 0` bypasses the check (Python truthiness) and is
silently replaced by the default 5; every normal retrieval returns at most
`min(top_k, chunk_count)` results. -/
theorem c7_topk_validation_and_bound :
    (∀ (repo_id message : String) (t : Int),
        pyStrip repo_id ≠ "" → pyStrip message ≠ "" → t ≠ 0 → (t < 1 ∨ 20 < t) →
        chatEndpoint repo_id message (some t) =
          ChatOutcome.badRequest "top_k must be between 1 and 20") ∧
    (∀ (repo_id message : String) (t : Int),
        pyStrip repo_id ≠ "" → pyStrip message ≠ "" → 1 ≤ t → t ≤ 20 →
        chatEndpoint repo_id message (some t) = ChatOutcome.handled t.toNat) ∧
    (∀ (repo_id message : String),
        pyStrip repo_id ≠ "" → pyStrip message ≠ "" →
        chatEndpoint repo_id message (some 0) = ChatOutcome.handled 5) ∧
    (∀ (dec : List Char → Option Chunk) (embed : String → List ℚ)
        (vecs : List (List ℚ)) (content : List Char) (chunks : List Chunk)
        (query : String) (top_k : ℕ) (results : List RetrievalResult) (used : Bool),
        retrLoadChunks dec content = some chunks →
        retrieve_chunks dec embed (some vecs) (some content) query top_k =
          ROutcome.ok results used →
        results.length ≤ min top_k chunks.length) := by
  refine ⟨?_, ?_, ?_, ?_⟩
  · intro repo_id message t h1 h2 h3 h4
    simp only [chatEndpoint, h1, h2, if_false]
    have hcond : t ≠ 0 ∧ (t < 1 ∨ t > 20) := ⟨h3, h4⟩
    rw [if_pos hcond]
  · intro repo_id message t h1 h2 h3 h4
    simp only [chatEndpoint, h1, h2, if_false]
    have hne : t ≠ 0 := by omega
    have hcond : ¬ (t ≠ 0 ∧ (t < 1 ∨ t > 20)) := by
      rintro ⟨-, h | h⟩ <;> omega
    rw [if_neg hcond, if_pos hne]
  · intro repo_id message h1 h2
    simp [chatEndpoint, h1, h2]
  · intro dec embed vecs content chunks query top_k results used hload hok
    simp only [retrieve_chunks, hload] at hok
    by_cases hemp : chunks.isEmpty
    · simp only [hemp, if_true] at hok
      cases hok
      simp
    · simp only [hemp, Bool.false_eq_true, if_false] at hok
      cases hex : _extract_commit_id_from_query query with
      | none =>
        rw [hex] at hok
        cases hok
        exact semanticSearch_length_le embed vecs chunks query top_k
      | some cid =>
        rw [hex] at hok
        simp only at hok
        by_cases hms : (exactMatches chunks cid).isEmpty
        · simp only [hms, Bool.not_true, Bool.false_eq_true, if_false] at hok
          cases hok
          exact semanticSearch_length_le embed vecs chunks query top_k
        · simp only [hms, Bool.not_false, if_true] at hok
          cases hok
          refine le_min ((List.length_take _ _).le.trans (min_le_left _ _)) ?_
          refine (List.length_take _ _).le.trans ((min_le_right _ _).trans ?_)
          simp only [exactMatches, List.length_map]
          exact List.length_filter_le _ _

/-- Witness for C7's amended statements at concrete inputs: `top_k = 25` is
rejected. -/
theorem c7_topk_validation_and_bound_witness :
    pyStrip "r" ≠ "" ∧ pyStrip "m" ≠ "" ∧ (25 : Int) ≠ 0 ∧ ((25 : Int) < 1 ∨ 20 < (25 : Int)) ∧
    chatEndpoint "r" "m" (some 25) = ChatOutcome.badRequest "top_k must be between 1 and 20" :=
  ⟨by decide, by decide, by decide, Or.inr (by decide),
   c7_topk_validation_and_bound.1 "r" "m" 25 (by decide) (by decide) (by decide)
     (Or.inr (by decide))⟩

/-! ### Vector lemmas -/

/-- Squared norms are nonnegative. -/
theorem l2normSq_nonneg (v : List ℚ) : 0 ≤ l2normSq v := by
  induction v with
  | nil => simp [l2normSq]
  | cons x xs ih =>
    simp only [l2normSq, List.map_cons, List.sum_cons]
    exact add_nonneg (mul_self_nonneg x) ih

/-- Cauchy-Schwarz for the truncating inner product of rational lists. -/
theorem ipQ_sq_le (u v : List ℚ) : (ipQ u v) ^ 2 ≤ l2normSq u * l2normSq v := by
  induction u generalizing v with
  | nil =>
    have h : ipQ [] v = 0 := by simp [ipQ]
    have h2 : l2normSq ([] : List ℚ) = 0 := by simp [l2normSq]
    rw [h, h2]
    simp
  | cons a u2 ih =>
    cases v with
    | nil =>
      have h : ipQ (a :: u2) [] = 0 := by simp [ipQ]
      have h2 : l2normSq ([] : List ℚ) = 0 := by simp [l2normSq]
      rw [h, h2]
      simp
    | cons b v2 =>
      have hS := ih v2
      have hU := l2normSq_nonneg u2
      have hV := l2normSq_nonneg v2
      have hip : ipQ (a :: u2) (b :: v2) = a * b + ipQ u2 v2 := by
        simp [ipQ]
      have hnu : l2normSq (a :: u2) = a * a + l2normSq u2 := by simp [l2normSq]
      have hnv : l2normSq (b :: v2) = b * b + l2normSq v2 := by simp [l2normSq]
      rw [hip, hnu, hnv]
      set S := ipQ u2 v2
      set U := l2normSq u2
      set V := l2normSq v2
      rcases eq_or_lt_of_le hV with hV0 | hVpos
      · have hS0 : S ^ 2 ≤ 0 := by rw [← hV0, mul_zero] at hS; exact hS
        have hSz : S = 0 := by
          have h00 : S ^ 2 = 0 := le_antisymm hS0 (sq_nonneg S)
          exact sq_eq_zero_iff.mp h00
        rw [hSz, ← hV0]
        nlinarith [mul_nonneg hU (mul_self_nonneg b)]
      · nlinarith [sq_nonneg (a * V - b * S), mul_nonneg (mul_self_nonneg b) (sub_nonneg.mpr hS),
          mul_nonneg hVpos.le (sub_nonneg.mpr hS)]

/-- `faiss.normalize_L2` leaves a unit vector unchanged. -/
theorem normalize_L2_of_normSq_one (v : List ℚ) (h : l2normSq v = 1) :
    normalize_L2 v = v := by
  simp only [normalize_L2, h, ratSqrt]
  norm_num

/-- Every scored pair of the flat index records the inner product of the query
with the stored vector at its index. -/
theorem scoredVecs_mem_indexed (q : List ℚ) (i : ℕ) (vs : List (List ℚ)) (p : ℚ × ℕ)
    (hp : p ∈ scoredVecs q i vs) :
    ∃ j, ∃ h : j < vs.length, p = (ipQ q (vs.get ⟨j, h⟩), i + j) := by
  induction vs generalizing i with
  | nil => simp [scoredVecs] at hp
  | cons v vs2 ih =>
    simp only [scoredVecs, List.mem_cons] at hp
    rcases hp with rfl | hp
    · exact ⟨0, by simp, by simp⟩
    · rcases ih (i + 1) hp with ⟨j, hj, hpj⟩
      refine ⟨j + 1, by simpa using hj, ?_⟩
      rw [hpj]
      congr 1
      omega

/-- Every hit returned by the index search carries the inner product of the
query with the stored vector at the reported position. -/
theorem searchIP_mem (vecs : List (List ℚ)) (q : List ℚ) (k : ℕ) (p : ℚ × ℕ)
    (hp : p ∈ searchIP vecs q k) :
    ∃ h : p.2 < vecs.length, p.1 = ipQ q (vecs.get ⟨p.2, h⟩) := by
  have h1 : p ∈ stableSortBy ipLe (scoredVecs q 0 vecs) := List.mem_of_mem_take hp
  have h2 : p ∈ scoredVecs q 0 vecs := (perm_stableSortBy ipLe _).mem_iff.mp h1
  rcases scoredVecs_mem_indexed q 0 vecs p h2 with ⟨j, hj, hpj⟩
  subst hpj
  simp only [Nat.zero_add]
  exact ⟨hj, by simp⟩

/-- The re-ranked candidate list is a permutation of the candidate list. -/
theorem perm_rerank (cands : List Candidate) : (rerank cands).Perm cands := by
  simp only [rerank, rerankScored]
  refine ((perm_stableSortBy _ _).map Prod.fst).trans ?_
  rw [List.map_map]
  simp [Function.comp_def]

/-- Every candidate stems from a hit whose index is in range, and carries the
id, text and date key of the chunk at that index together with the hit's
similarity. -/
theorem candidatesOf_mem (chunks : List Chunk) (hits : List (ℚ × ℕ)) (cand : Candidate)
    (hc : cand ∈ candidatesOf chunks hits) :
    ∃ si ∈ hits, ∃ h : si.2 < chunks.length,
      cand = Candidate.mk (chunks.get ⟨si.2, h⟩).id (chunks.get ⟨si.2, h⟩).text si.1
        (_extract_date_from_chunk_id (chunks.get ⟨si.2, h⟩).id) := by
  simp only [candidatesOf, List.mem_filterMap] at hc
  rcases hc with ⟨si, hsi, hmk⟩
  cases hget : chunks.get? si.2 with
  | none => rw [hget] at hmk; cases hmk
  | some c =>
    rw [hget] at hmk
    simp only [Option.some.injEq] at hmk
    have hlt : si.2 < chunks.length := (List.get?_eq_some.mp hget).1
    refine ⟨si, hsi, hlt, ?_⟩
    have hcg : chunks.get ⟨si.2, hlt⟩ = c := by
      have := List.get?_eq_some.mp hget
      rcases this with ⟨h, hg⟩
      exact hg
    rw [hcg, ← hmk]

/-- Every semantic-search result is the stripped form of some candidate. -/
theorem semanticSearch_mem (embed : String → List ℚ) (vecs : List (List ℚ))
    (chunks : List Chunk) (query : String) (top_k : ℕ) (r : RetrievalResult)
    (hr : r ∈ semanticSearch embed vecs chunks query top_k) :
    ∃ cand ∈ candidatesOf chunks
        (searchIP vecs (normalize_L2 (embed query))
          (searchKOf (_is_recency_query query) top_k chunks.length)),
      r = RetrievalResult.mk cand.id cand.text cand.similarity := by
  simp only [semanticSearch, List.mem_map] at hr
  rcases hr with ⟨cand, hcand, hmk⟩
  refine ⟨cand, ?_, hmk.symm⟩
  by_cases hcase : (_is_recency_query query &&
      !(candidatesOf chunks
          (searchIP vecs (normalize_L2 (embed query))
            (searchKOf (_is_recency_query query) top_k chunks.length))).isEmpty) = true
  · rw [if_pos hcase] at hcand
    exact (perm_rerank _).mem_iff.mp (List.mem_of_mem_take hcand)
  · rw [if_neg hcase] at hcand
    exact List.mem_of_mem_take hcand

/-! ### C4: similarity range and index-vector normalization -/

/-- Decoder of the C4 scenario: the single line `"L1"` holds chunk `c1`. -/
def c4dec : List Char → Option Chunk := fun l =>
  if l = ['L', '1'] then some ⟨"c1", "t1"⟩ else none

/-- Embedding provider of the C4 scenario: the query embeds to the unit vector
`[1, 0]`, the chunk text to the non-unit vector `[3, 4]`. -/
def c4embed : String → List ℚ := fun s => if s = "hello" then [1, 0] else [3, 4]

/-- C4 counterexample: `build_rag_index` stores the raw embedding `[3, 4]`
(squared norm 25, not L2-normalized), and the semantic search then reports
similarity `3 > 1` for the L2-normalized query `[1, 0]` - so the stored vectors
are not L2-normalized and the similarity is not confined to `[-1, 1]`. -/
theorem c4_similarity_range_counterexample :
    retrieve_chunks c4dec c4embed (some [[3, 4]]) (some ['L', '1']) "hello" 1 =
      ROutcome.ok [⟨"c1", "t1", 3⟩] true ∧
    build_rag_index c4dec c4embed (some ['L', '1']) =
      IndexBuildResult.written [[3, 4]] [⟨"c1", "t1"⟩] ∧
    l2normSq [(3 : ℚ), 4] ≠ 1 ∧
    ¬ ((3 : ℚ) ≤ 1) := by
  refine ⟨?_, by decide, by norm_num [l2normSq], by norm_num⟩
  have h1 : retrLoadChunks c4dec ['L', '1'] = some [⟨"c1", "t1"⟩] := rfl
  have h2 : _extract_commit_id_from_query "hello" = none := rfl
  have h3 : _is_recency_query "hello" = false := rfl
  have h4 : _extract_date_from_chunk_id "c1" = 0 := rfl
  have h5 : c4embed "hello" = [1, 0] := rfl
  rw [retrieve_chunks, h1]
  norm_num [h2, h3, h4, h5, semanticSearch, candidatesOf, searchKOf, normalize_L2, ratSqrt,
    l2normSq, ipQ, searchIP, scoredVecs, stableSortBy, insertStable, ipLe, rerank,
    rerankScored, maxDate, minDate, List.filterMap_cons, List.take_succ_cons]

/-- C4 (amended): the index stores the embedding vectors exactly as returned by
the provider - `build_rag_index` performs no L2 normalization on them - and the
similarity is the inner product of the L2-normalized query with the raw stored
vector; it therefore lies in `[-1, 1]` exactly under the additional assumption
that the provider returns unit-norm vectors (true of the deployed provider),
while exact commit-hash matches always carry similarity exactly 1. -/
theorem c4_similarity_range_amended :
    (∀ (dec : List Char → Option Chunk) (embed : String → List ℚ) (content : List Char)
        (vecs : List (List ℚ)) (chunks : List Chunk),
        build_rag_index dec embed (some content) = IndexBuildResult.written vecs chunks →
        vecs = chunks.map (fun c => embed c.text)) ∧
    (∀ (embed : String → List ℚ) (vecs : List (List ℚ)) (chunks : List Chunk)
        (query : String) (top_k : ℕ) (r : RetrievalResult),
        l2normSq (embed query) = 1 →
        (∀ v ∈ vecs, l2normSq v = 1) →
        r ∈ semanticSearch embed vecs chunks query top_k →
        -1 ≤ r.similarity ∧ r.similarity ≤ 1) ∧
    (∀ (chunks : List Chunk) (cid : String) (r : RetrievalResult),
        r ∈ exactMatches chunks cid → r.similarity = 1) := by
  refine ⟨?_, ?_, ?_⟩
  · intro dec embed content vecs chunks h
    by_cases hc : content = []
    · simp [build_rag_index, hc] at h
    · cases hload : indexLoadChunks dec content with
      | none => simp [build_rag_index, hc, hload] at h
      | some cs2 =>
        by_cases hcs : cs2 = []
        · simp [build_rag_index, hc, hload, hcs] at h
        · simp only [build_rag_index, hc, hload, hcs, if_false] at h
          injection h with h1 h2
          rw [← h1, ← h2]
  · intro embed vecs chunks query top_k r hq hv hr
    rcases semanticSearch_mem embed vecs chunks query top_k r hr with ⟨cand, hcand, rfl⟩
    rcases candidatesOf_mem chunks _ cand hcand with ⟨si, hsi, hlt, rfl⟩
    rcases searchIP_mem vecs _ _ si hsi with ⟨hlt2, hip⟩
    have hqn : normalize_L2 (embed query) = embed query := normalize_L2_of_normSq_one _ hq
    have hvec : l2normSq (vecs.get ⟨si.2, hlt2⟩) = 1 := hv _ (vecs.get_mem _ _)
    have hsq : si.1 ^ 2 ≤ 1 := by
      rw [hip, hqn]
      calc (ipQ (embed query) (vecs.get ⟨si.2, hlt2⟩)) ^ 2 ≤
          l2normSq (embed query) * l2normSq (vecs.get ⟨si.2, hlt2⟩) := ipQ_sq_le _ _
        _ = 1 := by rw [hq, hvec, one_mul]
    constructor
    · nlinarith [hsq]
    · nlinarith [hsq]
  · intro chunks cid r hr
    simp only [exactMatches, List.mem_map] at hr
    rcases hr with ⟨c, _, rfl⟩
    rfl

/-- Witness for C4's amended statements at the concrete C4 scenario. -/
theorem c4_similarity_range_amended_witness :
    build_rag_index c4dec c4embed (some ['L', '1']) =
      IndexBuildResult.written [[(3 : ℚ), 4]] [⟨"c1", "t1"⟩] ∧
    [[(3 : ℚ), 4]] = [Chunk.mk "c1" "t1"].map (fun c => c4embed c.text) :=
  ⟨by decide, c4_similarity_range_amended.1 c4dec c4embed ['L', '1'] _ _ (by decide)⟩

/-! ### Shared lemmas for the exact-match shortcut -/

/-- On a loaded nonempty chunk list, an extracted candidate with at least one
matching chunk takes the shortcut: the matches, truncated to `top_k`, with no
embedding call. -/
theorem retrieve_exact_branch (dec : List Char → Option Chunk) (embed : String → List ℚ)
    (vecs : List (List ℚ)) (content : List Char) (chunks : List Chunk)
    (query : String) (top_k : ℕ) (cid : String)
    (hload : retrLoadChunks dec content = some chunks) (hchne : chunks ≠ [])
    (hcid : _extract_commit_id_from_query query = some cid)
    (hne : exactMatches chunks cid ≠ []) :
    retrieve_chunks dec embed (some vecs) (some content) query top_k =
      ROutcome.ok ((exactMatches chunks cid).take top_k) false := by
  have hempty : chunks.isEmpty = false := by
    simpa [List.isEmpty_iff] using hchne
  have hms : (exactMatches chunks cid).isEmpty = false := by
    simpa [List.isEmpty_iff] using hne
  simp only [retrieve_chunks, hload, hempty, Bool.false_eq_true, if_false, hcid, hms,
    Bool.not_false, if_true]

/-- On a loaded nonempty chunk list, an extracted candidate matching no chunk
falls through to semantic search. -/
theorem retrieve_fallthrough (dec : List Char → Option Chunk) (embed : String → List ℚ)
    (vecs : List (List ℚ)) (content : List Char) (chunks : List Chunk)
    (query : String) (top_k : ℕ) (cid : String)
    (hload : retrLoadChunks dec content = some chunks) (hchne : chunks ≠ [])
    (hcid : _extract_commit_id_from_query query = some cid)
    (hms : exactMatches chunks cid = []) :
    retrieve_chunks dec embed (some vecs) (some content) query top_k =
      ROutcome.ok (semanticSearch embed vecs chunks query top_k) true := by
  have hempty : chunks.isEmpty = false := by
    simpa [List.isEmpty_iff] using hchne
  have hms2 : (exactMatches chunks cid).isEmpty = true := by simp [hms]
  simp only [retrieve_chunks, hload, hempty, Bool.false_eq_true, if_false, hcid, hms2,
    Bool.not_true, if_false]

/-- Every shortcut result carries similarity exactly 1. -/
theorem exactMatches_sims (chunks : List Chunk) (cid : String) (top_k : ℕ) :
    ∀ r ∈ (exactMatches chunks cid).take top_k, r.similarity = 1 := by
  intro r hr
  have hr2 : r ∈ exactMatches chunks cid := List.mem_of_mem_take hr
  simp only [exactMatches, List.mem_map] at hr2
  rcases hr2 with ⟨c, _, rfl⟩
  rfl

/-! ### C2: exact-match shortcut -/

/-- C2: when the query yields a commit-id candidate on a loaded, nonempty chunk
list, the shortcut returns exactly the chunks whose id equals the candidate,
ends with `"_<candidate>"`, or contains it as a substring - each with similarity
exactly 1, truncated to `top_k` and without any embedding call - and when the
candidate matches no chunk id, retrieval falls through to semantic search
instead of returning empty. -/
theorem c2_exact_match_shortcut (dec : List Char → Option Chunk) (embed : String → List ℚ)
    (vecs : List (List ℚ)) (content : List Char) (chunks : List Chunk)
    (query : String) (top_k : ℕ) (cid : String)
    (hload : retrLoadChunks dec content = some chunks) (hchne : chunks ≠ [])
    (hcid : _extract_commit_id_from_query query = some cid) :
    (exactMatches chunks cid =
        (chunks.filter (fun c =>
          (c.id == cid) || endsWithB c.id ("_" ++ cid) || strContains c.id cid)).map
          (fun c => ⟨c.id, c.text, 1⟩)) ∧
    (exactMatches chunks cid ≠ [] →
        retrieve_chunks dec embed (some vecs) (some content) query top_k =
          ROutcome.ok ((exactMatches chunks cid).take top_k) false ∧
        ∀ r ∈ (exactMatches chunks cid).take top_k, r.similarity = 1) ∧
    (exactMatches chunks cid = [] →
        retrieve_chunks dec embed (some vecs) (some content) query top_k =
          ROutcome.ok (semanticSearch embed vecs chunks query top_k) true) := by
  refine ⟨rfl, fun hne => ⟨?_, exactMatches_sims chunks cid top_k⟩, fun hms => ?_⟩
  · exact retrieve_exact_branch dec embed vecs content chunks query top_k cid
      hload hchne hcid hne
  · exact retrieve_fallthrough dec embed vecs content chunks query top_k cid
      hload hchne hcid hms

/-- The 40-hex hash of the C2 witness. -/
def c2hash : String := String.mk (List.replicate 40 'a')

/-- The chunk of the C2 witness, whose id embeds `c2hash`. -/
def c2chunk : Chunk := ⟨"20250101120000_" ++ c2hash, "tA"⟩

/-- Decoder of the C2 witness. -/
def c2dec : List Char → Option Chunk := fun l => if l = ['A'] then some c2chunk else none

/-- Witness for C2: querying with a bare 40-hex hash that exists in the chunk
set takes the shortcut without an embedding call. -/
theorem c2_exact_match_shortcut_witness :
    retrLoadChunks c2dec ['A'] = some [c2chunk] ∧
    _extract_commit_id_from_query c2hash = some c2hash ∧
    retrieve_chunks c2dec (fun _ => []) (some [[1]]) (some ['A']) c2hash 5 =
      ROutcome.ok ((exactMatches [c2chunk] c2hash).take 5) false :=
  ⟨rfl, by decide,
   ((c2_exact_match_shortcut c2dec (fun _ => []) [[1]] ['A'] [c2chunk] c2hash 5 c2hash
       rfl (by decide) (by decide)).2.1 (by decide)).1⟩

/-! ### C10: digit runs take the exact-match shortcut -/

/-- A prefix test extends along an appended tail. -/
theorem isPrefixB_append (n l l2 : List Char) (h : isPrefixB n l = true) :
    isPrefixB n (l ++ l2) = true := by
  induction n generalizing l with
  | nil => simp [isPrefixB]
  | cons a as ih =>
    cases l with
    | nil => simp [isPrefixB] at h
    | cons b bs =>
      simp only [isPrefixB, Bool.and_eq_true] at h
      simp only [List.cons_append, isPrefixB, Bool.and_eq_true]
      exact ⟨h.1, ih bs h.2⟩

/-- The empty needle occurs in every haystack. -/
theorem containsSub_nil_left (l : List Char) : containsSub [] l = true := by
  induction l with
  | nil => simp [containsSub, isPrefixB]
  | cons c rest ih => simp [containsSub, isPrefixB]

/-- A substring of `l` is a substring of `l ++ l2`. -/
theorem containsSub_append_right (n l l2 : List Char) (h : containsSub n l = true) :
    containsSub n (l ++ l2) = true := by
  induction l with
  | nil =>
    have hn : n = [] := by
      cases n with
      | nil => rfl
      | cons a as => simp [containsSub, isPrefixB] at h
    subst hn
    exact containsSub_nil_left l2
  | cons c rest ih =>
    simp only [containsSub, Bool.or_eq_true] at h
    rcases h with h | h
    · simp only [List.cons_append, containsSub, Bool.or_eq_true]
      exact Or.inl (isPrefixB_append n (c :: rest) l2 h)
    · simp only [List.cons_append, containsSub, Bool.or_eq_true]
      exact Or.inr (ih h)

/-- C10: the short-hash regex also matches runs of seven or more decimal digits
(e.g. the date `20250101120000` mentioned in a query is extracted as a commit-id
candidate), and whenever the extracted candidate occurs inside the date prefix
of some loaded chunk's id, the retrieval takes the exact-match shortcut:
nonempty results with similarity exactly 1 and no embedding call. -/
theorem c10_digit_run_shortcut :
    (∀ (dec : List Char → Option Chunk) (embed : String → List ℚ)
        (vecs : List (List ℚ)) (content : List Char) (chunks : List Chunk)
        (query : String) (top_k : ℕ) (d : String) (c : Chunk),
        retrLoadChunks dec content = some chunks →
        chunks ≠ [] →
        _extract_commit_id_from_query query = some d →
        c ∈ chunks →
        containsSub d.toList (c.id.toList.takeWhile (fun ch => !(ch == '_'))) = true →
        exactMatches chunks d ≠ [] ∧
        retrieve_chunks dec embed (some vecs) (some content) query top_k =
          ROutcome.ok ((exactMatches chunks d).take top_k) false ∧
        ∀ r ∈ (exactMatches chunks d).take top_k, r.similarity = 1) ∧
    _extract_commit_id_from_query "What changed on 20250101120000?" = some "20250101120000" ∧
    "20250101120000".toList.all Char.isDigit = true := by
  refine ⟨?_, by decide, by decide⟩
  intro dec embed vecs content chunks query top_k d c hload hchne hcid hc hsub
  have hcontain : strContains c.id d = true := by
    have hsplit : c.id.toList.takeWhile (fun ch => !(ch == '_')) ++
        c.id.toList.dropWhile (fun ch => !(ch == '_')) = c.id.toList :=
      List.takeWhile_append_dropWhile _ _
    have := containsSub_append_right d.toList _
      (c.id.toList.dropWhile (fun ch => !(ch == '_'))) hsub
    rw [hsplit] at this
    exact this
  have hpred : exactMatchPred d c = true := by
    simp only [exactMatchPred, Bool.or_eq_true]
    tauto
  have hmem : Chunk.mk c.id c.text ∈ chunks := by
    cases c; exact hc
  have hne : exactMatches chunks d ≠ [] := by
    have hmemf : c ∈ chunks.filter (exactMatchPred d) := List.mem_filter.mpr ⟨hc, hpred⟩
    exact List.ne_nil_of_mem (List.mem_map_of_mem _ hmemf)
  exact ⟨hne,
    retrieve_exact_branch dec embed vecs content chunks query top_k d hload hchne hcid hne,
    exactMatches_sims chunks d top_k⟩

/-- Witness for C10: the date `20250101120000` occurs in the loaded chunk's id
prefix and the shortcut fires. -/
theorem c10_digit_run_shortcut_witness :
    retrLoadChunks c2dec ['A'] = some [c2chunk] ∧
    _extract_commit_id_from_query "What changed on 20250101120000?" = some "20250101120000" ∧
    retrieve_chunks c2dec (fun _ => []) (some [[1]]) (some ['A'])
        "What changed on 20250101120000?" 5 =
      ROutcome.ok ((exactMatches [c2chunk] "20250101120000").take 5) false :=
  ⟨rfl, by decide,
   (c10_digit_run_shortcut.1 c2dec (fun _ => []) [[1]] ['A'] [c2chunk]
       "What changed on 20250101120000?" 5 "20250101120000" c2chunk
       rfl (by decide) (by decide) (by decide) (by decide)).2.1⟩

/-! ### C5: recency re-ranking -/

/-- Folding `max` over a constant list returns the constant. -/
theorem foldl_max_const (d0 : Int) (l : List Int) (h : ∀ x ∈ l, x = d0) :
    l.foldl max d0 = d0 := by
  induction l with
  | nil => rfl
  | cons x xs ih =>
    have hx : x = d0 := h x (List.mem_cons_self x xs)
    simp only [List.foldl_cons, hx, max_self]
    exact ih fun y hy => h y (List.mem_cons_of_mem x hy)

/-- Folding `min` over a constant list returns the constant. -/
theorem foldl_min_const (d0 : Int) (l : List Int) (h : ∀ x ∈ l, x = d0) :
    l.foldl min d0 = d0 := by
  induction l with
  | nil => rfl
  | cons x xs ih =>
    have hx : x = d0 := h x (List.mem_cons_self x xs)
    simp only [List.foldl_cons, hx, min_self]
    exact ih fun y hy => h y (List.mem_cons_of_mem x hy)

/-- The candidate triple of the spec's re-ranking example: similarities
`[0.9, 0.85, 0.5]` and dates that min-max normalize to `[0.0, 1.0, 0.5]`. -/
def c5cands : List Candidate :=
  [⟨"a", "", (0.9 : ℚ), 0⟩, ⟨"b", "", (0.85 : ℚ), 100⟩, ⟨"c", "", (0.5 : ℚ), 50⟩]

/-- C5: on a recency query with a nonempty candidate set, retrieval searches
`min(chunk_count, 3*top_k)` neighbors and returns the first `top_k` candidates
of the descending combined-score order; the combined-score list is sorted
descending and is a permutation of the candidate set; when all candidates share
one date the normalized recency is 0 for all, so the score is `0.7*similarity`;
date keys parse from the chunk-id prefix with failure giving 0; and the spec's
example scores `[0.63, 0.895, 0.5]` rank the second candidate first. -/
theorem c5_recency_reranking :
    (∀ (dec : List Char → Option Chunk) (embed : String → List ℚ)
        (vecs : List (List ℚ)) (content : List Char) (chunks : List Chunk)
        (query : String) (top_k : ℕ),
        retrLoadChunks dec content = some chunks →
        chunks ≠ [] →
        _extract_commit_id_from_query query = none →
        _is_recency_query query = true →
        candidatesOf chunks (searchIP vecs (normalize_L2 (embed query))
            (min (top_k * 3) chunks.length)) ≠ [] →
        retrieve_chunks dec embed (some vecs) (some content) query top_k =
          ROutcome.ok
            (((rerank (candidatesOf chunks (searchIP vecs (normalize_L2 (embed query))
                (min (top_k * 3) chunks.length)))).take top_k).map
              (fun r => RetrievalResult.mk r.id r.text r.similarity)) true) ∧
    (∀ cands : List Candidate, (rerankScored cands).Pairwise (fun p q => q.2 ≤ p.2)) ∧
    (∀ cands : List Candidate, (rerank cands).Perm cands) ∧
    (∀ (cands : List Candidate) (d0 : Int), (∀ c ∈ cands, c.date = d0) →
        ∀ pair ∈ rerankScored cands, pair.2 = (7 / 10 : ℚ) * pair.1.similarity) ∧
    (_extract_date_from_chunk_id "20250101120000_abc" = 20250101120000 ∧
     _extract_date_from_chunk_id "garbage" = 0) ∧
    (rerankScored c5cands).map (fun p => (p.1.id, p.2)) =
      [("b", (0.895 : ℚ)), ("a", (0.63 : ℚ)), ("c", (0.5 : ℚ))] := by
  refine ⟨?_, ?_, perm_rerank, ?_, ⟨by decide, by decide⟩, ?_⟩
  · intro dec embed vecs content chunks query top_k hload hchne hcid hrec hcands
    have hempty : chunks.isEmpty = false := by
      simpa [List.isEmpty_iff] using hchne
    have hsk : searchKOf (_is_recency_query query) top_k chunks.length =
        min (top_k * 3) chunks.length := by
      simp [searchKOf, hrec]
    have hcemp : (candidatesOf chunks (searchIP vecs (normalize_L2 (embed query))
        (min (top_k * 3) chunks.length))).isEmpty = false := by
      simpa [List.isEmpty_iff] using hcands
    simp [retrieve_chunks, hload, hempty, hcid, semanticSearch, hrec, searchKOf, hcemp]
  · intro cands
    exact pairwise_stableSortBy (fun p q : Candidate × ℚ => q.2 ≤ p.2)
      (fun a b => decide (b.2 ≤ a.2)) (fun a b => by simp)
      (fun hab hbc => le_trans hbc hab) (fun a b => le_total b.2 a.2) _
  · intro cands d0 hd pair hpair
    have hpair2 : pair ∈ cands.map (fun c =>
        (c, (7 / 10 : ℚ) * c.similarity +
          (3 / 10 : ℚ) * (((c.date - minDate cands : ℤ) : ℚ) /
            (if minDate cands < maxDate cands then ((maxDate cands - minDate cands : ℤ) : ℚ)
             else 1)))) := by
      exact (perm_stableSortBy _ _).mem_iff.mp hpair
    rcases List.mem_map.mp hpair2 with ⟨c, hc, rfl⟩
    cases cands with
    | nil => cases hc
    | cons c0 cs =>
      have hc0 : c0.date = d0 := hd c0 (List.mem_cons_self c0 cs)
      have hmin : minDate (c0 :: cs) = d0 := by
        simp only [minDate, hc0]
        exact foldl_min_const d0 _ (fun x hx => by
          rcases List.mem_map.mp hx with ⟨y, hy, rfl⟩
          exact hd y (List.mem_cons_of_mem c0 hy))
      have hmax : maxDate (c0 :: cs) = d0 := by
        simp only [maxDate, hc0]
        exact foldl_max_const d0 _ (fun x hx => by
          rcases List.mem_map.mp hx with ⟨y, hy, rfl⟩
          exact hd y (List.mem_cons_of_mem c0 hy))
      have hcd : c.date = d0 := hd c hc
      rw [hmin, hmax, hcd]
      simp
  · norm_num [c5cands, rerankScored, maxDate, minDate, stableSortBy, insertStable,
      List.map_cons, List.map_nil]

/-- Decoder of the C5 witness. -/
def c5dec : List Char → Option Chunk := fun l => if l = ['A'] then some ⟨"d", "t"⟩ else none

/-- Embedding provider of the C5 witness. -/
def c5embed : String → List ℚ := fun _ => [1, 0]

/-- Witness for C5 at a concrete recency query. -/
theorem c5_recency_reranking_witness :
    _is_recency_query "latest" = true ∧
    retrieve_chunks c5dec c5embed (some [[1, 0]]) (some ['A']) "latest" 1 =
      ROutcome.ok
        (((rerank (candidatesOf [⟨"d", "t"⟩] (searchIP [[1, 0]]
            (normalize_L2 (c5embed "latest")) (min (1 * 3) 1)))).take 1).map
          (fun r => RetrievalResult.mk r.id r.text r.similarity)) true :=
  ⟨by decide,
   c5_recency_reranking.1 c5dec c5embed [[1, 0]] ['A'] [⟨"d", "t"⟩] "latest" 1 rfl
     (by decide) (by decide) (by decide)
     (by
       norm_num [candidatesOf, searchIP, scoredVecs, stableSortBy, insertStable, ipLe,
         c5embed, normalize_L2, ratSqrt, l2normSq, ipQ, List.filterMap_cons,
         _extract_date_from_chunk_id])⟩

/-! ### C1: chunk-to-vector alignment -/

/-- If stripping changes nothing, neither does the left `dropWhile`. -/
theorem dropWhile_eq_of_stripChars (l : List Char) (h : stripChars l = l) :
    l.dropWhile isPyWs = l := by
  have h1 : (l.dropWhile isPyWs).length ≤ l.length :=
    (List.dropWhile_suffix isPyWs).length_le
  have h2 : (stripChars l).length ≤ (l.dropWhile isPyWs).length := by
    simp only [stripChars, List.length_reverse]
    exact le_trans (List.dropWhile_suffix isPyWs).length_le (by simp)
  have h3 : (l.dropWhile isPyWs).length = l.length := by
    have := congrArg List.length h
    omega
  exact List.IsSuffix.eq_of_length (List.dropWhile_suffix isPyWs) h3

/-- If stripping changes nothing, neither does the right `dropWhile` (on the
reversed list). -/
theorem dropWhile_reverse_eq_of_stripChars (l : List Char) (h : stripChars l = l) :
    l.reverse.dropWhile isPyWs = l.reverse := by
  have hleft : l.dropWhile isPyWs = l := dropWhile_eq_of_stripChars l h
  have h2 : (l.reverse.dropWhile isPyWs).reverse = l := by
    calc (l.reverse.dropWhile isPyWs).reverse
        = ((l.dropWhile isPyWs).reverse.dropWhile isPyWs).reverse := by rw [hleft]
      _ = stripChars l := rfl
      _ = l := h
  calc l.reverse.dropWhile isPyWs = (l.reverse.dropWhile isPyWs).reverse.reverse := by
        rw [List.reverse_reverse]
    _ = l.reverse := by rw [h2]

/-- A nonempty list fixed by `dropWhile` starts with a character failing the
predicate. -/
theorem head_neg_of_dropWhile_eq (p : Char → Bool) (l : List Char) (hne : l ≠ [])
    (h : l.dropWhile p = l) : ∃ a t, l = a :: t ∧ p a = false := by
  cases l with
  | nil => exact absurd rfl hne
  | cons a t =>
    by_cases hp : p a = true
    · exfalso
      rw [List.dropWhile_cons_of_pos hp] at h
      have := congrArg List.length h
      have hle : (t.dropWhile p).length ≤ t.length := (List.dropWhile_suffix p).length_le
      simp at this
      omega
    · exact ⟨a, t, rfl, by simpa using hp⟩

/-- The newline-join of a nonempty line list starts with its first line. -/
theorem joinLinesNl_cons_shape (l : List Char) (ls : List (List Char)) :
    ∃ m, joinLinesNl (l :: ls) = l ++ m := by
  cases ls with
  | nil => exact ⟨[], by simp [joinLinesNl]⟩
  | cons l2 ls2 => exact ⟨'\n' :: joinLinesNl (l2 :: ls2), by simp [joinLinesNl]⟩

/-- The newline-join of a nonempty line list ends with its last line. -/
theorem joinLinesNl_last_shape (lines : List (List Char)) (hne : lines ≠ []) :
    ∃ pre last, last ∈ lines ∧ lines.getLast? = some last ∧
      joinLinesNl lines = pre ++ last := by
  induction lines with
  | nil => exact absurd rfl hne
  | cons l ls ih =>
    cases ls with
    | nil => exact ⟨[], l, by simp, by simp, by simp [joinLinesNl]⟩
    | cons l2 ls2 =>
      rcases ih (by simp) with ⟨pre, last, hmem, hlast, hjoin⟩
      refine ⟨l ++ '\n' :: pre, last, List.mem_cons_of_mem l hmem, ?_, ?_⟩
      · rw [List.getLast?_cons_cons]
        exact hlast
      · simp only [joinLinesNl, hjoin]
        simp

/-- Stripping the written chunk document removes exactly the trailing newline. -/
theorem stripChars_jsonlOf (lines : List (List Char))
    (hne : lines ≠ []) (hlne : ∀ l ∈ lines, l ≠ [])
    (hstrip : ∀ l ∈ lines, stripChars l = l) :
    stripChars (jsonlOf lines) = joinLinesNl lines := by
  cases lines with
  | nil => exact absurd rfl hne
  | cons l1 ls =>
    have hl1 : stripChars l1 = l1 := hstrip l1 (List.mem_cons_self l1 ls)
    have hl1ne : l1 ≠ [] := hlne l1 (List.mem_cons_self l1 ls)
    rcases head_neg_of_dropWhile_eq isPyWs l1 hl1ne (dropWhile_eq_of_stripChars l1 hl1)
      with ⟨a, t, hshape, hpa⟩
    rcases joinLinesNl_cons_shape l1 ls with ⟨m, hjoin⟩
    rcases joinLinesNl_last_shape (l1 :: ls) (by simp) with ⟨pre, last, hmem, _, hjoin2⟩
    have hlastne : last ≠ [] := hlne last hmem
    have hlaststrip : stripChars last = last := hstrip last hmem
    have hlastrev : last.reverse.dropWhile isPyWs = last.reverse :=
      dropWhile_reverse_eq_of_stripChars last hlaststrip
    have hlastrevne : last.reverse ≠ [] := by simpa using hlastne
    rcases head_neg_of_dropWhile_eq isPyWs last.reverse hlastrevne hlastrev
      with ⟨b, tb, hbshape, hpb⟩
    set J := joinLinesNl (l1 :: ls) with hJ
    have hcontent : jsonlOf (l1 :: ls) = J ++ ['\n'] := by
      simp [jsonlOf]
    -- Left strip: the content starts with the non-whitespace `a`.
    have hJshape : J ++ ['\n'] = a :: (t ++ m ++ ['\n']) := by
      rw [hjoin, hshape]
      simp
    have hA : (J ++ ['\n']).dropWhile isPyWs = J ++ ['\n'] := by
      rw [hJshape]
      exact List.dropWhile_cons_of_neg (by simp [hpa])
    -- Right strip: the reversed content is `'\n'` then the reversed join, whose
    -- head is the non-whitespace last character `b` of the last line.
    have hrev : (J ++ ['\n']).reverse = '\n' :: J.reverse := by
      simp
    have hJrev : J.reverse = b :: (tb ++ pre.reverse) := by
      rw [hjoin2, List.reverse_append, hbshape]
      simp
    have hB : ('\n' :: J.reverse).dropWhile isPyWs = J.reverse := by
      rw [List.dropWhile_cons_of_pos (by simp [isPyWs])]
      rw [hJrev]
      exact List.dropWhile_cons_of_neg (by simp [hpb])
    calc stripChars (jsonlOf (l1 :: ls))
        = (((J ++ ['\n']).dropWhile isPyWs).reverse.dropWhile isPyWs).reverse := by
          rw [hcontent]; rfl
      _ = ((J ++ ['\n']).reverse.dropWhile isPyWs).reverse := by rw [hA]
      _ = (('\n' :: J.reverse).dropWhile isPyWs).reverse := by rw [hrev]
      _ = J.reverse.reverse := by rw [hB]
      _ = J := List.reverse_reverse J

/-- C1: for a chunk file written as the newline-delimited encoding of the chunk
sequence `cs` (the shape `build_rag_chunks` writes, with a faithful JSON codec:
each line decodes back, is nonempty, newline-free and strip-invariant), the
index builder and the retriever load the same sequence `cs`; the index built by
`build_rag_index` stores at position `i` exactly the embedding of the text of
chunk `i`; and every semantic-search hit `idx` is reported with the id and text
of `chunks[idx]`, its similarity being the inner product of the normalized
query with that chunk's embedding. -/
theorem c1_chunk_vector_alignment
    (dec : List Char → Option Chunk) (enc : Chunk → List Char) (embed : String → List ℚ)
    (cs : List Chunk)
    (hdec : ∀ c ∈ cs, dec (enc c) = some c)
    (hne : ∀ c ∈ cs, enc c ≠ [])
    (hnl : ∀ c ∈ cs, ('\n' : Char) ∉ enc c)
    (hstrip : ∀ c ∈ cs, stripChars (enc c) = enc c) :
    indexLoadChunks dec (jsonlOf (cs.map enc)) = some cs ∧
    retrLoadChunks dec (jsonlOf (cs.map enc)) = some cs ∧
    (∀ (vecs : List (List ℚ)) (chunks : List Chunk),
        build_rag_index dec embed (some (jsonlOf (cs.map enc))) =
          IndexBuildResult.written vecs chunks →
        chunks = cs ∧
        ∀ (i : ℕ) (h : i < cs.length) (h2 : i < vecs.length),
          vecs.get ⟨i, h2⟩ = embed ((cs.get ⟨i, h⟩).text)) ∧
    (∀ (query : String) (top_k : ℕ) (r : RetrievalResult),
        r ∈ semanticSearch embed (cs.map (fun c => embed c.text)) cs query top_k →
        ∃ i, ∃ h : i < cs.length,
          r.id = (cs.get ⟨i, h⟩).id ∧ r.text = (cs.get ⟨i, h⟩).text ∧
          r.similarity = ipQ (normalize_L2 (embed query)) (embed ((cs.get ⟨i, h⟩).text))) := by
  have hnl2 : ∀ l ∈ cs.map enc, ('\n' : Char) ∉ l := by
    intro l hl
    rcases List.mem_map.mp hl with ⟨c, hc, rfl⟩
    exact hnl c hc
  have hne2 : ∀ l ∈ cs.map enc, l ≠ [] := by
    intro l hl
    rcases List.mem_map.mp hl with ⟨c, hc, rfl⟩
    exact hne c hc
  have hstrip2 : ∀ l ∈ cs.map enc, stripChars l = l := by
    intro l hl
    rcases List.mem_map.mp hl with ⟨c, hc, rfl⟩
    exact hstrip c hc
  have hfilter : (cs.map enc).filter (fun l => l ≠ []) = cs.map enc := by
    rw [List.filter_eq_self]
    intro a ha
    simpa using hne2 a ha
  have hindex : indexLoadChunks dec (jsonlOf (cs.map enc)) = some cs := by
    simp only [indexLoadChunks, splitlinesNl_jsonlOf (cs.map enc) hnl2]
    have hmapstrip : (cs.map enc).map stripChars = cs.map enc :=
      List.map_congr_left (fun l hl => hstrip2 l hl) |>.trans (List.map_id _)
    rw [hmapstrip, hfilter]
    exact decodeLines_roundtrip dec enc cs hdec
  have hretr : retrLoadChunks dec (jsonlOf (cs.map enc)) = some cs := by
    by_cases hcs : cs = []
    · subst hcs
      simp [retrLoadChunks, jsonlOf, joinLinesNl, stripChars, splitNl, decodeLines]
    · have hlinesne : (cs.map enc) ≠ [] := by simpa using hcs
      rw [retrLoadChunks, stripChars_jsonlOf (cs.map enc) hlinesne hne2 hstrip2,
        splitNl_joinLinesNl (cs.map enc) hnl2 hlinesne, hfilter]
      exact decodeLines_roundtrip dec enc cs hdec
  refine ⟨hindex, hretr, ?_, ?_⟩
  · intro vecs chunks h
    by_cases hc : jsonlOf (cs.map enc) = []
    · rw [build_rag_index, hc] at h
      simp at h
    · by_cases hcs : cs = []
      · exfalso
        apply hc
        simp [hcs, jsonlOf, joinLinesNl]
      · rw [build_rag_index, if_neg hc, hindex] at h
        have h0 : (if cs = [] then IndexBuildResult.noneWritten
            else IndexBuildResult.written (cs.map (fun c => embed c.text)) cs) =
            IndexBuildResult.written vecs chunks := h
        rw [if_neg hcs] at h0
        injection h0 with h1 h2
        subst h2
        subst h1
        refine ⟨rfl, fun i hi hi2 => ?_⟩
        rw [List.get_map]
  · intro query top_k r hr
    rcases semanticSearch_mem embed _ cs query top_k r hr with ⟨cand, hcand, rfl⟩
    rcases candidatesOf_mem cs _ cand hcand with ⟨si, hsi, hlt, rfl⟩
    rcases searchIP_mem _ _ _ si hsi with ⟨hlt2, hip⟩
    refine ⟨si.2, hlt, rfl, rfl, ?_⟩
    have hget : (cs.map (fun c => embed c.text)).get ⟨si.2, hlt2⟩ =
        embed ((cs.get ⟨si.2, hlt⟩).text) := by
      rw [List.get_map]
    simpa [hget] using hip

/-- Encoder of the C1 witness. -/
def w1enc : Chunk → List Char := fun _ => ['E']

/-- Decoder of the C1 witness. -/
def w1dec : List Char → Option Chunk := fun l =>
  if l = ['E'] then some ⟨"id1", "t1"⟩ else none

/-- Witness for C1 at a concrete one-chunk repository and faithful codec. -/
theorem c1_chunk_vector_alignment_witness :
    (∀ c ∈ [Chunk.mk "id1" "t1"], w1dec (w1enc c) = some c) ∧
    indexLoadChunks w1dec (jsonlOf ([Chunk.mk "id1" "t1"].map w1enc)) =
      some [Chunk.mk "id1" "t1"] :=
  ⟨by decide,
   (c1_chunk_vector_alignment w1dec w1enc (fun _ => []) [Chunk.mk "id1" "t1"]
       (by decide) (by decide) (by decide) (by decide)).1⟩

end RepoMentor
